import Mathlib

/-!
Verification of the constrained stimulus-sequencing logic of the
`exp_imitation` experiment code.

The Python modules `path_stimuli.py` and `path_and_randomization.py` are
embedded shallowly:

* stimulus identifiers are `String`s; the underscore tokenization and the
  positional / marker-based attribute extractors are translated directly;
* extraction that can raise `IndexError` in Python is `Option`-valued
  (`none` models the raised exception);
* the mutable list manipulated by `rearrange` is passed explicitly, and the
  whole rearrangement is `Except`-valued so that a raised exception inside a
  pass propagates exactly as in Python;
* Python's global random generator (library code, not part of the
  repository) is modelled by an explicitly threaded `Nat` state: `random.seed`
  replaces the state by a function of the seed alone, and `random.shuffle`
  is the Fisher-Yates walk documented for the Python library, drawing its
  indices from the threaded generator.  Nothing proved below depends on the
  particular pseudo-random stream, only on seeding and on shuffles being
  permutations;
* file writes performed by `load_or_generate_stimuli` are recorded as an
  explicit event trace.
-/

/-! ### Python string primitives

The Python string operations the two modules use (`split`, `replace`,
`startswith`, slicing) are implemented structurally over the character list
of a `String`, with exactly Python's semantics (non-overlapping
left-to-right matching for `split` and `replace`). -/

/-- `startsWithList pat cs`: `cs` begins with `pat` (Python `startswith` on
character lists). -/
def startsWithList : List Char → List Char → Bool
  | [], _ => true
  | _ :: _, [] => false
  | p :: ps, c :: cs => p = c && startsWithList ps cs

/-- Python `s.startswith(pat)`. -/
def pyStartsWith (s pat : String) : Bool :=
  startsWithList pat.toList s.toList

/-- Worker for Python `str.split(sep)`; `fuel` bounds the scan (one unit per
consumed character, so `cs.length` suffices for a non-empty separator). -/
def splitOnAuxL (sep : List Char) (fuel : Nat) (cur cs : List Char) :
    List (List Char) :=
  match fuel with
  | 0 => [cur.reverse ++ cs]
  | fuel + 1 =>
    match cs with
    | [] => [cur.reverse]
    | c :: cs' =>
      if startsWithList sep cs then
        cur.reverse :: splitOnAuxL sep fuel [] (cs.drop sep.length)
      else
        splitOnAuxL sep fuel (c :: cur) cs'

/-- Python `s.split(sep)` for a non-empty separator: non-overlapping
occurrences, scanned left to right; `''.split(sep) = ['']`. -/
def pySplit (s sep : String) : List String :=
  (splitOnAuxL sep.toList s.toList.length [] s.toList).map String.mk

/-- Worker for Python `str.replace`. -/
def replaceAuxL (pat rep : List Char) (fuel : Nat) (cs : List Char) :
    List Char :=
  match fuel with
  | 0 => cs
  | fuel + 1 =>
    match cs with
    | [] => []
    | c :: cs' =>
      if startsWithList pat cs then
        rep ++ replaceAuxL pat rep fuel (cs.drop pat.length)
      else
        c :: replaceAuxL pat rep fuel cs'

/-- Python `s.replace(pat, rep)` for a non-empty pattern: every
non-overlapping occurrence, scanned left to right. -/
def pyReplace (s pat rep : String) : String :=
  String.mk (replaceAuxL pat.toList rep.toList s.toList.length s.toList)

/-- Python slicing `s[:n]` (first `n` characters). -/
def pyTake (s : String) (n : Nat) : String :=
  String.mk (s.toList.take n)

instance {ε α : Type} [DecidableEq ε] [DecidableEq α] : DecidableEq (Except ε α) :=
  fun a b =>
    match a, b with
    | .ok x, .ok y => decidable_of_iff (x = y) (by simp)
    | .error x, .error y => decidable_of_iff (x = y) (by simp)
    | .ok _, .error _ => isFalse (by simp)
    | .error _, .ok _ => isFalse (by simp)

/-- `[part for part in filename.split('_') if part]` — underscore tokens with
the empty parts discarded (shared helper of both Python modules). -/
def splitTokens (filename : String) : List String :=
  (pySplit filename "_").filter (fun part => part ≠ "")

/-- A stimulus identifier that decomposes into at least four non-empty
tokens, as the positional extraction convention requires. -/
def wf4 (filename : String) : Prop :=
  4 ≤ (splitTokens filename).length

instance : DecidablePred wf4 := fun f => by unfold wf4; infer_instance

namespace path_stimuli

/-- `get_condition` of `path_stimuli.py`: `split_name[1]`; `none` models the
`IndexError` raised when fewer than two tokens exist. -/
def get_condition (filename : String) : Option String :=
  (splitTokens filename)[1]?

/-- `get_manip` of `path_stimuli.py`: `split_name[3]`. -/
def get_manip (filename : String) : Option String :=
  (splitTokens filename)[3]?

/-- `get_name_stim` of `path_stimuli.py`: `split_name[0]`. -/
def get_name_stim (filename : String) : Option String :=
  (splitTokens filename)[0]?

end path_stimuli

namespace path_and_randomization

/-- `get_manip` of `path_and_randomization.py`:
`split_name[-1].replace('.wav', '')` — the last non-empty token with every
occurrence of `".wav"` replaced by the empty string; `none` models the
`IndexError` on an empty token list. -/
def get_manip (filename : String) : Option String :=
  ((splitTokens filename).getLast?).map (fun t => pyReplace t ".wav" "")

/-- `get_name_stim` of `path_and_randomization.py`:
`filename.split('_bra_')[0] + '_'` — total, never raises. -/
def get_name_stim (filename : String) : String :=
  ((pySplit filename "_bra_").headD "") ++ "_"

end path_and_randomization

/-! ### The threaded pseudo-random generator and Fisher-Yates shuffle -/

/-- Modelled from the Python `random` library (not part of the repository):
one step of a seeded pseudo-random generator.  A linear congruential
generator stands in for the Mersenne generator; every property proved below
holds for an arbitrary deterministic generator. -/
def randNext (s : Nat) : Nat :=
  (s * 1103515245 + 12345) % 2147483648

/-- Modelled from the Python `random` library: `random.seed n` discards the
current generator state and replaces it by a state computed from `n` alone. -/
def seedState (n : Nat) : Nat := n

/-- Exchange the entries at positions `i` and `j`; out-of-range indices
leave the list unchanged (the callers below always stay in range). -/
def listSwap (l : List α) (i j : Nat) : List α :=
  match l[i]?, l[j]? with
  | some x, some y => (l.set i y).set j x
  | _, _ => l

/-- Modelled from the Python `random` library: the tail of `random.shuffle`'s
Fisher-Yates walk, `for i in reversed(range(1, len(x))): j = randbelow(i+1);
swap x[i] x[j]`, at positions `i, i-1, …, 1`. -/
def shuffleAux (l : List α) (i s : Nat) : List α × Nat :=
  match i with
  | 0 => (l, s)
  | i' + 1 =>
    let s' := randNext s
    let j := s' % (i' + 2)
    shuffleAux (listSwap l (i' + 1) j) i' s'

/-- Modelled from the Python `random` library: `random.shuffle`, on an
explicit generator state. -/
def shuffleList (l : List α) (s : Nat) : List α × Nat :=
  shuffleAux l (l.length - 1) s

namespace path_stimuli

/-- `shuffle_stimuli` of `path_stimuli.py`: `random.shuffle(stimuli)` followed
by `return stimuli` — the shuffled list is both the argument's new value and
the returned value. -/
def shuffle_stimuli (stimuli : List String) (s : Nat) : List String × Nat :=
  shuffleList stimuli s

end path_stimuli

/-! ### Permutation facts about `listSwap` and the shuffle -/

theorem count_set_add [DecidableEq α] (l : List α) (i : Nat) (x b a : α)
    (hx : l[i]? = some x) :
    ((l.set i b).count a) + (if x = a then 1 else 0)
      = l.count a + (if b = a then 1 else 0) := by
  induction l generalizing i with
  | nil => simp at hx
  | cons c t ih =>
    cases i with
    | zero =>
      simp only [List.getElem?_cons_zero, Option.some.injEq] at hx
      subst hx
      simp only [List.set_cons_zero, List.count_cons, beq_iff_eq]
      by_cases h1 : c = a <;> by_cases h2 : b = a <;> simp [h1, h2]
    | succ n =>
      simp only [List.getElem?_cons_succ] at hx
      have ih' := ih n hx
      simp only [List.set_cons_succ, List.count_cons, beq_iff_eq]
      by_cases h1 : c = a <;> by_cases h2 : x = a <;> by_cases h3 : b = a <;>
        simp [h1, h2, h3] at ih' ⊢ <;> omega

theorem listSwap_perm (l : List α) (i j : Nat) [DecidableEq α] :
    (listSwap l i j).Perm l := by
  unfold listSwap
  split
  next x y hx hy =>
    rw [List.perm_iff_count]
    intro a
    have h1 := count_set_add l i x y a hx
    have hi : i < l.length := by
      by_contra hge
      rw [List.getElem?_eq_none (by omega)] at hx
      exact Option.noConfusion hx
    by_cases hij : i = j
    · subst hij
      rw [hx] at hy
      injection hy with hy
      subst hy
      have h2 : (l.set i x)[i]? = some x := by
        rw [List.getElem?_set_self (by simpa using hi)]
      have h3 := count_set_add (l.set i x) i x x a h2
      omega
    · have h2 : (l.set i y)[j]? = some y := by
        rw [List.getElem?_set_ne hij]
        exact hy
      have h3 := count_set_add (l.set i y) j y x a h2
      omega
  next => exact List.Perm.refl l

theorem shuffleAux_perm [DecidableEq α] (l : List α) (i s : Nat) :
    (shuffleAux l i s).1.Perm l := by
  induction i generalizing l s with
  | zero => exact List.Perm.refl l
  | succ i' ih =>
    simp only [shuffleAux]
    exact (ih _ _).trans (listSwap_perm _ _ _)

theorem shuffleList_perm [DecidableEq α] (l : List α) (s : Nat) :
    (shuffleList l s).1.Perm l :=
  shuffleAux_perm l (l.length - 1) s

/-! ### The targeted-swap `rearrange` algorithm of `path_stimuli.py`

The three nested Python loops are translated one-to-one.  `fuel` counts the
remaining loop iterations (`len - j` resp. `len - k`); list length is
preserved by every swap, so the translation visits exactly the indices the
Python `range`s visit.  A getter returning `none` models the `IndexError`
the Python getter raises, aborting the whole call. -/

namespace path_stimuli

/-- The innermost loop of `rearrange`:
`for k in range(j+1, len): if get(l[k]) != vj: swap and break`.
Returns the index chosen for the swap, `none` when no candidate exists. -/
def findSwap (get : String → Option String) (vj : String) (l : List String)
    (k fuel : Nat) : Except Unit (Option Nat) :=
  match fuel with
  | 0 => .ok none
  | fuel + 1 =>
    match l[k]? with
    | none => .ok none
    | some xk =>
      match get xk with
      | none => .error ()
      | some vk => if vk ≠ vj then .ok (some k) else findSwap get vj l (k + 1) fuel

/-- The middle loop of `rearrange` over `j in range(i+1, len)`, carrying
`attribute_count`; a failed swap search breaks out of the loop. -/
def jloop (get : String → Option String) (limit : Nat) (l : List String)
    (i j count fuel : Nat) : Except Unit (List String) :=
  match fuel with
  | 0 => .ok l
  | fuel + 1 =>
    match l[j]? with
    | none => .ok l
    | some xj =>
      match get xj with
      | none => .error ()
      | some vj =>
        match l[i]? with
        | none => .ok l
        | some xi =>
          match get xi with
          | none => .error ()
          | some vi =>
            let count' := if vj = vi then count + 1 else 1
            if count' > limit then
              match findSwap get vj l (j + 1) (l.length - (j + 1)) with
              | .error e => .error e
              | .ok none => .ok l
              | .ok (some k) => jloop get limit (listSwap l j k) i (j + 1) count' fuel
            else jloop get limit l i (j + 1) count' fuel

/-- The outer loop of `rearrange` over `i in range(len)`. -/
def iloop (get : String → Option String) (limit : Nat) (l : List String)
    (i fuel : Nat) : Except Unit (List String) :=
  match fuel with
  | 0 => .ok l
  | fuel + 1 =>
    match jloop get limit l i (i + 1) 1 (l.length - (i + 1)) with
    | .error e => .error e
    | .ok l' => iloop get limit l' (i + 1) fuel

/-- One full pass of `rearrange` for a single attribute. -/
def passAttr (get : String → Option String) (limit : Nat) (l : List String) :
    Except Unit (List String) :=
  iloop get limit l 0 l.length

/-- `rearrange` of `path_stimuli.py`: one pass per attribute, in the
dictionary's insertion order `condition`, `name_stim`, `manip`, on a copy of
the input list. -/
def rearrange (stimuli : List String)
    (condition_limit name_stim_limit manip_limit : Nat) :
    Except Unit (List String) :=
  match passAttr get_condition condition_limit stimuli with
  | .error e => .error e
  | .ok l1 =>
    match passAttr get_name_stim name_stim_limit l1 with
    | .error e => .error e
    | .ok l2 => passAttr get_manip manip_limit l2

/-- The observable behaviour of the call `rearrange(stimuli, …)` at the
caller: the first component is the value of the caller's list after the call
(`rearrange` only reads its argument, via `stimuli.copy()`), the second the
returned rearranged copy. -/
def rearrange_call (stimuli : List String)
    (condition_limit name_stim_limit manip_limit : Nat) :
    List String × Except Unit (List String) :=
  (stimuli, rearrange stimuli condition_limit name_stim_limit manip_limit)

end path_stimuli

namespace path_stimuli

theorem findSwap_ok {get : String → Option String} {vj : String} :
    ∀ (fuel : Nat) (l : List String) (k : Nat),
      (∀ x ∈ l, (get x).isSome) → ∃ r, findSwap get vj l k fuel = .ok r := by
  intro fuel
  induction fuel with
  | zero => exact fun l k _ => ⟨none, rfl⟩
  | succ fuel ih =>
    intro l k hget
    cases hk : l[k]? with
    | none => exact ⟨none, by simp [findSwap, hk]⟩
    | some xk =>
      cases hx : get xk with
      | none =>
        have := hget xk (List.getElem?_mem hk)
        rw [hx] at this
        exact absurd this (by simp)
      | some vk =>
        by_cases hne : vk ≠ vj
        · exact ⟨some k, by simp [findSwap, hk, hx, hne]⟩
        · obtain ⟨r, hr⟩ := ih l (k + 1) hget
          exact ⟨r, by simp [findSwap, hk, hx, hne, hr]⟩

theorem jloop_perm {get : String → Option String} {limit : Nat} :
    ∀ (fuel : Nat) (l : List String) (i j count : Nat) (l' : List String),
      jloop get limit l i j count fuel = .ok l' → l'.Perm l := by
  intro fuel
  induction fuel with
  | zero =>
    intro l i j count l' h
    rw [jloop] at h
    injection h with h
    exact h ▸ List.Perm.refl l
  | succ fuel ih =>
    intro l i j count l' h
    cases hj : l[j]? with
    | none => simp only [jloop, hj] at h; injection h with h; exact h ▸ List.Perm.refl l
    | some xj =>
      cases hgj : get xj with
      | none => simp only [jloop, hj, hgj] at h; exact absurd h (by simp)
      | some vj =>
        cases hi : l[i]? with
        | none =>
          simp only [jloop, hj, hgj, hi] at h
          injection h with h
          exact h ▸ List.Perm.refl l
        | some xi =>
          cases hgi : get xi with
          | none => simp only [jloop, hj, hgj, hi, hgi] at h; exact absurd h (by simp)
          | some vi =>
            simp only [jloop, hj, hgj, hi, hgi] at h
            by_cases hlim : (if vj = vi then count + 1 else 1) > limit
            · rw [if_pos hlim] at h
              cases hr : findSwap get vj l (j + 1) (l.length - (j + 1)) with
              | error e => rw [hr] at h; exact absurd h (by simp)
              | ok r =>
                cases r with
                | none => rw [hr] at h; injection h with h; exact h ▸ List.Perm.refl l
                | some k =>
                  rw [hr] at h
                  exact (ih _ _ _ _ _ h).trans (listSwap_perm _ _ _)
            · rw [if_neg hlim] at h
              exact ih _ _ _ _ _ h

theorem jloop_ok {get : String → Option String} {limit : Nat} :
    ∀ (fuel : Nat) (l : List String) (i j count : Nat),
      (∀ x ∈ l, (get x).isSome) →
      ∃ l', jloop get limit l i j count fuel = .ok l' := by
  intro fuel
  induction fuel with
  | zero => exact fun l _ _ _ _ => ⟨l, rfl⟩
  | succ fuel ih =>
    intro l i j count hget
    cases hj : l[j]? with
    | none => exact ⟨l, by simp only [jloop, hj]⟩
    | some xj =>
      have hvj : (get xj).isSome := hget xj (List.getElem?_mem hj)
      cases hgj : get xj with
      | none => rw [hgj] at hvj; exact absurd hvj (by simp)
      | some vj =>
        cases hi : l[i]? with
        | none => exact ⟨l, by simp only [jloop, hj, hgj, hi]⟩
        | some xi =>
          have hvi : (get xi).isSome := hget xi (List.getElem?_mem hi)
          cases hgi : get xi with
          | none => rw [hgi] at hvi; exact absurd hvi (by simp)
          | some vi =>
            by_cases hlim : (if vj = vi then count + 1 else 1) > limit
            · obtain ⟨r, hr⟩ := @findSwap_ok get vj (l.length - (j + 1)) l (j + 1) hget
              cases r with
              | none =>
                exact ⟨l, by simp only [jloop, hj, hgj, hi, hgi]; rw [if_pos hlim, hr]⟩
              | some k =>
                have hmem : ∀ x ∈ listSwap l j k, (get x).isSome := fun x hx =>
                  hget x ((listSwap_perm l j k).mem_iff.mp hx)
                obtain ⟨l', hl'⟩ := ih (listSwap l j k) i (j + 1)
                  (if vj = vi then count + 1 else 1) hmem
                refine ⟨l', ?_⟩
                simp only [jloop, hj, hgj, hi, hgi]
                rw [if_pos hlim, hr]
                exact hl'
            · obtain ⟨l', hl'⟩ := ih l i (j + 1) (if vj = vi then count + 1 else 1) hget
              exact ⟨l', by simp only [jloop, hj, hgj, hi, hgi]; rw [if_neg hlim, hl']⟩

theorem iloop_perm {get : String → Option String} {limit : Nat} :
    ∀ (fuel : Nat) (l : List String) (i : Nat) (l' : List String),
      iloop get limit l i fuel = .ok l' → l'.Perm l := by
  intro fuel
  induction fuel with
  | zero =>
    intro l i l' h
    rw [iloop] at h
    injection h with h
    exact h ▸ List.Perm.refl l
  | succ fuel ih =>
    intro l i l' h
    rw [iloop] at h
    split at h
    · exact absurd h (by simp)
    next lmid hmid => exact (ih _ _ _ h).trans (jloop_perm _ _ _ _ _ _ hmid)

theorem iloop_ok {get : String → Option String} {limit : Nat} :
    ∀ (fuel : Nat) (l : List String) (i : Nat),
      (∀ x ∈ l, (get x).isSome) →
      ∃ l', iloop get limit l i fuel = .ok l' := by
  intro fuel
  induction fuel with
  | zero => exact fun l _ _ => ⟨l, rfl⟩
  | succ fuel ih =>
    intro l i hget
    obtain ⟨lmid, hmid⟩ := @jloop_ok get limit (l.length - (i + 1)) l i (i + 1) 1 hget
    have hmem : ∀ x ∈ lmid, (get x).isSome := fun x hx =>
      hget x ((jloop_perm _ _ _ _ _ _ hmid).mem_iff.mp hx)
    obtain ⟨l', hl'⟩ := ih lmid (i + 1) hmem
    exact ⟨l', by simp only [iloop, hmid, hl']⟩

theorem passAttr_perm {get : String → Option String} {limit : Nat}
    {l l' : List String} (h : passAttr get limit l = .ok l') : l'.Perm l :=
  iloop_perm _ _ _ _ h

theorem passAttr_ok {get : String → Option String} {limit : Nat}
    {l : List String} (hget : ∀ x ∈ l, (get x).isSome) :
    ∃ l', passAttr get limit l = .ok l' :=
  iloop_ok _ _ _ hget

theorem rearrange_perm {stimuli : List String} {cl nl ml : Nat}
    {out : List String} (h : rearrange stimuli cl nl ml = .ok out) :
    out.Perm stimuli := by
  rw [rearrange] at h
  split at h
  · exact absurd h (by simp)
  next l1 h1 =>
    split at h
    · exact absurd h (by simp)
    next l2 h2 =>
      exact (passAttr_perm h).trans ((passAttr_perm h2).trans (passAttr_perm h1))

end path_stimuli

theorem getElem?_isSome_of_lt {l : List α} {i : Nat} (h : i < l.length) :
    (l[i]?).isSome := by
  cases h2 : l[i]? with
  | none => rw [List.getElem?_eq_none_iff] at h2; omega
  | some a => rfl

namespace path_stimuli

theorem wf4_getters {f : String} (h : wf4 f) :
    (get_condition f).isSome ∧ (get_name_stim f).isSome ∧ (get_manip f).isSome := by
  unfold wf4 at h
  exact ⟨getElem?_isSome_of_lt (by omega), getElem?_isSome_of_lt (by omega),
    getElem?_isSome_of_lt (by omega)⟩

/-- On identifiers with at least four tokens, `rearrange` terminates without
raising and returns a permutation of its input. -/
theorem rearrange_ok {stimuli : List String} (cl nl ml : Nat)
    (hwf : ∀ f ∈ stimuli, wf4 f) :
    ∃ out, rearrange stimuli cl nl ml = .ok out ∧ out.Perm stimuli := by
  obtain ⟨l1, h1⟩ := @passAttr_ok get_condition cl stimuli
    (fun x hx => (wf4_getters (hwf x hx)).1)
  have p1 := passAttr_perm h1
  obtain ⟨l2, h2⟩ := @passAttr_ok get_name_stim nl l1
    (fun x hx => (wf4_getters (hwf x (p1.mem_iff.mp hx))).2.1)
  have p2 := passAttr_perm h2
  obtain ⟨l3, h3⟩ := @passAttr_ok get_manip ml l2
    (fun x hx => (wf4_getters (hwf x (p1.mem_iff.mp (p2.mem_iff.mp hx)))).2.2)
  have p3 := passAttr_perm h3
  exact ⟨l3, by simp only [rearrange, h1, h2]; exact h3, p3.trans (p2.trans p1)⟩

end path_stimuli

/-! ### Partitioning a list by a key: the concatenation of the groups is a
permutation of the elements whose key is defined -/

theorem count_filter_key {α κ : Type} [DecidableEq α] [DecidableEq κ]
    (l : List α) (key : α → Option κ) (k : κ) (x : α) :
    (l.filter (fun a => key a = some k)).count x
      = if key x = some k then l.count x else 0 := by
  by_cases h : key x = some k
  · rw [if_pos h]
    exact List.count_filter (by simpa using h)
  · rw [if_neg h, List.count_eq_zero]
    intro hmem
    exact h (by simpa using (List.mem_filter.mp hmem).2)

theorem count_filter_isSome {α κ : Type} [DecidableEq α] [DecidableEq κ]
    (l : List α) (key : α → Option κ) (x : α) :
    (l.filter (fun a => (key a).isSome)).count x
      = if (key x).isSome then l.count x else 0 := by
  by_cases h : (key x).isSome
  · rw [if_pos h]
    exact List.count_filter (by simpa using h)
  · rw [if_neg h, List.count_eq_zero]
    intro hmem
    exact h (by simpa using (List.mem_filter.mp hmem).2)

theorem sum_map_ite_count {κ : Type} [DecidableEq κ] (c : κ) (A : Nat) :
    ∀ ks : List κ, ks.Nodup →
      (ks.map (fun k => if c = k then A else 0)).sum = if c ∈ ks then A else 0 := by
  intro ks
  induction ks with
  | nil => simp
  | cons k ks ih =>
    intro hnd
    rw [List.nodup_cons] at hnd
    simp only [List.map_cons, List.sum_cons, ih hnd.2]
    by_cases hck : c = k
    · subst hck
      rw [if_pos rfl, if_neg hnd.1, if_pos (List.mem_cons_self _ _)]
      omega
    · rw [if_neg hck]
      by_cases hmem : c ∈ ks
      · rw [if_pos hmem, if_pos (List.mem_cons_of_mem _ hmem)]
        omega
      · rw [if_neg hmem, if_neg (by simp [hck, hmem])]

theorem filter_partition_perm {α κ : Type} [DecidableEq α] [DecidableEq κ]
    (l : List α) (key : α → Option κ) (ks : List κ) (hnd : ks.Nodup)
    (hcover : ∀ x ∈ l, ∀ c, key x = some c → c ∈ ks) :
    ((ks.map (fun k => l.filter (fun a => key a = some k))).flatten).Perm
      (l.filter (fun a => (key a).isSome)) := by
  rw [List.perm_iff_count]
  intro x
  rw [List.count_flatten, List.map_map, count_filter_isSome l key x]
  simp only [Function.comp_def, count_filter_key]
  cases hk : key x with
  | none => simp [hk]
  | some c =>
    simp only [hk, Option.some.injEq, Option.isSome_some, if_true]
    rw [sum_map_ite_count c (l.count x) ks hnd]
    by_cases hx : x ∈ l
    · rw [if_pos (hcover x hx c hk)]
    · rw [List.count_eq_zero_of_not_mem hx]
      simp

namespace path_stimuli

/-- The accumulator step of `group_stimuli`'s dictionary: a new key
`stimulus[:5]` is appended to the key list at its first occurrence
(`defaultdict` insertion order). -/
def insertKeyFn (ks : List String) (f : String) : List String :=
  if pyTake f 5 ∈ ks then ks else ks ++ [pyTake f 5]

/-- The insertion-ordered key list of the dictionary built by
`group_stimuli` of `path_stimuli.py` (`name_stim = stimulus[:5]`). -/
def group_stimuli_keys (stimuli : List String) : List String :=
  stimuli.foldl insertKeyFn []

/-- The group stored by `group_stimuli` of `path_stimuli.py` under key `k`:
the stimuli whose first five characters equal `k`, in input order. -/
def group_stimuli (stimuli : List String) (k : String) : List String :=
  stimuli.filter (fun f => pyTake f 5 = k)

theorem foldl_insertKeyFn_nodup :
    ∀ (l acc : List String), acc.Nodup → (l.foldl insertKeyFn acc).Nodup := by
  intro l
  induction l with
  | nil => exact fun acc h => h
  | cons f t ih =>
    intro acc hacc
    refine ih _ ?_
    unfold insertKeyFn
    split
    · exact hacc
    next hnot =>
      rw [List.nodup_append]
      exact ⟨hacc, List.nodup_singleton _, by simpa using hnot⟩

theorem subset_foldl_insertKeyFn :
    ∀ (l acc : List String), acc ⊆ l.foldl insertKeyFn acc := by
  intro l
  induction l with
  | nil => exact fun acc => List.Subset.refl acc
  | cons f t ih =>
    intro acc
    refine List.Subset.trans ?_ (ih (insertKeyFn acc f))
    unfold insertKeyFn
    split
    · exact List.Subset.refl acc
    · exact List.subset_append_left _ _

theorem mem_foldl_insertKeyFn :
    ∀ (l acc : List String) (f : String), f ∈ l →
      pyTake f 5 ∈ l.foldl insertKeyFn acc := by
  intro l
  induction l with
  | nil => intro acc f h; exact absurd h (List.not_mem_nil f)
  | cons g t ih =>
    intro acc f h
    rcases List.mem_cons.mp h with rfl | h
    · refine subset_foldl_insertKeyFn t (insertKeyFn acc f) ?_
      unfold insertKeyFn
      split
      next hmem => exact hmem
      · exact List.mem_append_right _ (List.mem_singleton_self _)
    · exact ih _ f h

theorem group_stimuli_keys_nodup (stimuli : List String) :
    (group_stimuli_keys stimuli).Nodup :=
  foldl_insertKeyFn_nodup stimuli [] List.nodup_nil

theorem mem_group_stimuli_keys {stimuli : List String} {f : String}
    (hf : f ∈ stimuli) : pyTake f 5 ∈ group_stimuli_keys stimuli :=
  mem_foldl_insertKeyFn stimuli [] f hf

/-- `create_randomized_stimuli`'s per-group loop: for each key (in dict
insertion order) shuffle that group, `rearrange` it with the default limits
3, 3, 3, and concatenate, threading the generator state through the
shuffles. -/
def createGo (stimuli : List String) : List String → Nat → Except Unit (List String)
  | [], _ => .ok []
  | k :: ks, s =>
    let p := shuffleList (group_stimuli stimuli k) s
    match rearrange p.1 3 3 3 with
    | .error e => .error e
    | .ok r =>
      match createGo stimuli ks p.2 with
      | .error e => .error e
      | .ok rest => .ok (r ++ rest)

/-- `create_randomized_stimuli` of `path_stimuli.py` on a directory listing
`stimuli`: `random.seed(666)` discards the incoming generator state `_s0`,
the stimuli are grouped by their first five characters, and each group is
shuffled and rearranged in turn. -/
def create_randomized_stimuli (stimuli : List String) (_s0 : Nat) :
    Except Unit (List String) :=
  createGo stimuli (group_stimuli_keys stimuli) (seedState 666)

theorem createGo_ok_perm (stimuli : List String) (hwf : ∀ f ∈ stimuli, wf4 f) :
    ∀ (ks : List String) (s : Nat),
      ∃ out, createGo stimuli ks s = .ok out ∧
        out.Perm ((ks.map (fun k => group_stimuli stimuli k)).flatten) := by
  intro ks
  induction ks with
  | nil => exact fun s => ⟨[], rfl, by simp⟩
  | cons k ks ih =>
    intro s
    have hsub : ∀ f ∈ (shuffleList (group_stimuli stimuli k) s).1, wf4 f := fun f hf =>
      hwf f (List.mem_of_mem_filter ((shuffleList_perm _ _).mem_iff.mp hf))
    obtain ⟨r, hr, pr⟩ := rearrange_ok 3 3 3 hsub
    obtain ⟨rest, hrest, prest⟩ := ih (shuffleList (group_stimuli stimuli k) s).2
    refine ⟨r ++ rest, ?_, ?_⟩
    · simp only [createGo, hr, hrest]
    · simp only [List.map_cons, List.flatten_cons]
      exact (pr.trans (shuffleList_perm _ _)).append prest

/-- The per-key groups of `group_stimuli` partition the stimulus list: their
concatenation is a permutation of the input. -/
theorem flatten_groups_perm (stimuli : List String) :
    (((group_stimuli_keys stimuli).map (fun k => group_stimuli stimuli k)).flatten).Perm
      stimuli := by
  have hpart := filter_partition_perm stimuli (fun f => some (pyTake f 5))
    (group_stimuli_keys stimuli) (group_stimuli_keys_nodup stimuli)
    (fun x hx c hc => by
      injection hc with hc
      exact hc ▸ mem_group_stimuli_keys hx)
  have hgroups : (group_stimuli_keys stimuli).map (fun k => group_stimuli stimuli k)
      = (group_stimuli_keys stimuli).map
          (fun k => stimuli.filter (fun a => (some (pyTake a 5) : Option String) = some k)) := by
    refine List.map_congr_left (fun k _ => ?_)
    unfold group_stimuli
    exact List.filter_congr (fun a _ => by simp)
  have hall : stimuli.filter
      (fun a => ((fun f => some (pyTake f 5)) a).isSome) = stimuli :=
    List.filter_eq_self.mpr (fun a _ => rfl)
  rw [hgroups]
  rw [hall] at hpart
  exact hpart

/-- The whole generation pipeline of `create_randomized_stimuli` succeeds on
well-formed identifiers and permutes its input: nothing is lost, nothing is
duplicated. -/
theorem create_randomized_stimuli_perm {stimuli : List String}
    (hwf : ∀ f ∈ stimuli, wf4 f) (s0 : Nat) :
    ∃ out, create_randomized_stimuli stimuli s0 = .ok out ∧ out.Perm stimuli := by
  obtain ⟨out, hout, pout⟩ :=
    createGo_ok_perm stimuli hwf (group_stimuli_keys stimuli) (seedState 666)
  exact ⟨out, hout, pout.trans (flatten_groups_perm stimuli)⟩

theorem createGo_perm (stimuli : List String) :
    ∀ (ks : List String) (s : Nat) (out : List String),
      createGo stimuli ks s = .ok out →
      out.Perm ((ks.map (fun k => group_stimuli stimuli k)).flatten) := by
  intro ks
  induction ks with
  | nil =>
    intro s out h
    injection h with h
    exact h ▸ (by simp)
  | cons k ks ih =>
    intro s out h
    simp only [createGo] at h
    cases hr : rearrange (shuffleList (group_stimuli stimuli k) s).1 3 3 3 with
    | error e => rw [hr] at h; exact absurd h (by simp)
    | ok r =>
      rw [hr] at h
      cases hrest : createGo stimuli ks (shuffleList (group_stimuli stimuli k) s).2 with
      | error e => rw [hrest] at h; exact absurd h (by simp)
      | ok rest =>
        rw [hrest] at h
        injection h with h
        subst h
        simp only [List.map_cons, List.flatten_cons]
        exact ((rearrange_perm hr).trans (shuffleList_perm _ _)).append (ih _ _ hrest)

/-- Whenever `create_randomized_stimuli` returns (rather than raising), its
result is a permutation of the directory listing. -/
theorem create_randomized_stimuli_perm_of_ok {stimuli out : List String}
    {s0 : Nat} (h : create_randomized_stimuli stimuli s0 = .ok out) :
    out.Perm stimuli :=
  (createGo_perm stimuli _ _ _ h).trans (flatten_groups_perm stimuli)

end path_stimuli

namespace path_stimuli

/-- A file write performed by `load_or_generate_stimuli`. -/
inductive FileWrite where
  | pkl (content : List String)
  | csv (rows : List (List String))
deriving DecidableEq

/-- Python `set(a) == set(b)`. -/
def sameSet (a b : List String) : Bool :=
  a.all (fun x => x ∈ b) && b.all (fun x => x ∈ a)

/-- `load_or_generate_stimuli` of `path_stimuli.py`.  `listing` is the
directory snapshot `load_stimuli` returns, `saved` the content of
`randomized_stimuli.pkl` when that file exists.  The first component records
the file writes performed, in order; the second is the returned list, with
`.error ()` modelling the `AssertionError` of the final set-equality check
(or an `IndexError` escaping from `create_randomized_stimuli`).  In the
generate branch the pickle and CSV writes happen before the assertion. -/
def load_or_generate_stimuli (listing : List String)
    (saved : Option (List String)) (s : Nat) :
    List FileWrite × Except Unit (List String) :=
  match saved with
  | some content =>
    if sameSet listing content then ([], .ok content) else ([], .error ())
  | none =>
    match create_randomized_stimuli listing s with
    | .error e => ([], .error e)
    | .ok rand =>
      ([.pkl rand, .csv (rand.map (fun r => [r]))],
        if sameSet listing rand then .ok rand else .error ())

theorem sameSet_of_perm {a b : List String} (h : b.Perm a) :
    sameSet a b = true := by
  simp only [sameSet, Bool.and_eq_true, List.all_eq_true, decide_eq_true_eq]
  exact ⟨fun x hx => h.mem_iff.mpr hx, fun x hx => h.mem_iff.mp hx⟩

end path_stimuli

namespace path_and_randomization

/-- The module-level `name_coordinations` list of
`path_and_randomization.py`. -/
def name_coordinations : List String :=
  ["gabi__leni__", "leni__mimmi_", "lilli_gabi__", "moni__lilli_", "nelli_moni__"]

/-- The dictionary produced by `get_stimulus_data`. -/
structure StimulusData where
  filename : String
  manip : String
  name_stim : String
deriving DecidableEq

/-- `get_stimulus_data` of `path_and_randomization.py`; `none` models the
`IndexError` its `get_manip` call raises on an identifier without tokens. -/
def get_stimulus_data (filename : String) : Option StimulusData :=
  (get_manip filename).map (fun m => ⟨filename, m, get_name_stim filename⟩)

/-- The first coordination in `coords` that `f` starts with — the `break` in
the grouping loop of `randomize_stimuli_based_on_name_coordination` keeps
only the first match. -/
def firstCoord (coords : List String) (f : String) : Option String :=
  coords.find? (fun c => pyStartsWith f c)

/-- The group collected under the key `c` by the grouping loop: the stimuli
whose first matching coordination is `c`, in input order. -/
def coordGroup (coords : List String) (data : List StimulusData) (c : String) :
    List StimulusData :=
  data.filter (fun d => firstCoord coords d.filename = some c)

/-- The two loops following the group shuffle: shuffle each coordination's
group in the (shuffled) coordination order, then concatenate in that same
order. -/
def shuffleGroups (coords : List String) (data : List StimulusData) :
    List String → Nat → List StimulusData × Nat
  | [], s => ([], s)
  | c :: cs, s =>
    let p := shuffleList (coordGroup coords data c) s
    let q := shuffleGroups coords data cs p.2
    (p.1 ++ q.1, q.2)

/-- `randomize_stimuli_based_on_name_coordination` of
`path_and_randomization.py`.  `coords` is the current value of the global
`name_coordinations` list; the middle component of the result is its value
after the in-place `random.shuffle`, the last the final generator state. -/
def randomize_stimuli_based_on_name_coordination (coords : List String)
    (data : List StimulusData) (s : Nat) :
    List StimulusData × List String × Nat :=
  let p := shuffleList coords s
  let q := shuffleGroups coords data p.1 p.2
  (q.1, p.1, q.2)

/-- `randomize_stimuli` of `path_and_randomization.py`: extract the per-file
data dictionaries (raising on a token-free name), randomize, then segregate
the resulting filenames by the (shuffled) coordination order into an
insertion-ordered dictionary, modelled as an association list. -/
def randomize_stimuli (files coords : List String) (s : Nat) :
    Except Unit (List (String × List String) × List String × Nat) :=
  match files.mapM get_stimulus_data with
  | none => .error ()
  | some data =>
    let r := randomize_stimuli_based_on_name_coordination coords data s
    let rfiles := r.1.map (fun d => d.filename)
    .ok (r.2.1.map (fun c => (c, rfiles.filter (fun f => pyStartsWith f c))),
      r.2.1, r.2.2)

/-- The rows `save_randomized_stimuli` of `path_and_randomization.py` writes:
the header row `["filename"]`, then one row per iteration of
`for row in randomized_stimuli` — iterating a Python dict yields its KEYS in
insertion order, so each subsequent row holds one coordination key of the
segregated dictionary. -/
def save_randomized_stimuli_rows (seg : List (String × List String)) :
    List (List String) :=
  ["filename"] :: seg.map (fun kv => [kv.1])

/-- The ordered stimulus sequence represented by the segregated dictionary:
its value lists in dictionary order, concatenated. -/
def segregated_sequence (seg : List (String × List String)) : List String :=
  (seg.map (fun kv => kv.2)).flatten

/-- `load_and_randomize` of `path_and_randomization.py` on a directory
listing: randomize, write the CSV rows, return the segregated dictionary
(plus the shuffled global list and generator state). -/
def load_and_randomize (files coords : List String) (s : Nat) :
    Except Unit (List (List String) × List (String × List String)
      × List String × Nat) :=
  match randomize_stimuli files coords s with
  | .error e => .error e
  | .ok r => .ok (save_randomized_stimuli_rows r.1, r)

end path_and_randomization

namespace path_and_randomization

theorem shuffleGroups_perm (coords : List String) (data : List StimulusData) :
    ∀ (order : List String) (s : Nat),
      (shuffleGroups coords data order s).1.Perm
        ((order.map (fun c => coordGroup coords data c)).flatten) := by
  intro order
  induction order with
  | nil => intro s; simp [shuffleGroups]
  | cons c cs ih =>
    intro s
    simp only [shuffleGroups, List.map_cons, List.flatten_cons]
    exact (shuffleList_perm _ _).append (ih _)

theorem firstCoord_isSome_eq_any (coords : List String) (f : String) :
    (firstCoord coords f).isSome = coords.any (fun c => pyStartsWith f c) := by
  rw [Bool.eq_iff_iff]
  unfold firstCoord
  simp [List.find?_isSome, List.any_eq_true]

/-- The coordination pipeline returns a permutation of exactly those input
stimuli whose filename starts with one of the current coordinations; all
others are dropped. -/
theorem randomize_coordination_perm (coords : List String)
    (hnd : coords.Nodup) (data : List StimulusData) (s : Nat) :
    (randomize_stimuli_based_on_name_coordination coords data s).1.Perm
      (data.filter (fun d => coords.any (fun c => pyStartsWith d.filename c))) := by
  unfold randomize_stimuli_based_on_name_coordination
  refine (shuffleGroups_perm coords data (shuffleList coords s).1
    (shuffleList coords s).2).trans ?_
  have hnodup : ((shuffleList coords s).1).Nodup :=
    ((shuffleList_perm coords s).nodup_iff).mpr hnd
  have hpart := filter_partition_perm data
    (fun d => firstCoord coords d.filename)
    (shuffleList coords s).1 hnodup
    (fun x _ c hc => (shuffleList_perm coords s).mem_iff.mpr
      (List.mem_of_find?_eq_some hc))
  unfold coordGroup
  refine hpart.trans (List.Perm.of_eq ?_)
  exact List.filter_congr (fun d _ => firstCoord_isSome_eq_any coords d.filename)

end path_and_randomization

/-! ### Spec-side checkers: run lengths, attribute counts, suffix stripping -/

/-- Worker for `maxRunBy`: longest run of equal consecutive values. -/
def maxRunAux {β : Type} [DecidableEq β] : Option β → Nat → Nat → List β → Nat
  | _, _, best, [] => best
  | prev, cur, best, w :: ws =>
    let cur' := if some w = prev then cur + 1 else 1
    maxRunAux (some w) cur' (max best cur') ws

/-- Length of the longest run of consecutive stimuli sharing the same
`get`-attribute value (the spec's run scanner). -/
def maxRunBy (get : String → Option String) (l : List String) : Nat :=
  maxRunAux none 0 0 (l.map get)

/-- How many stimuli of `l` carry the `get`-attribute value `v`. -/
def attrCount (get : String → Option String) (l : List String)
    (v : Option String) : Nat :=
  (l.filter (fun f => get f = v)).length

/-- The spec's strict-satisfiability premise for limit `L`: every value of
the attribute occurs at most `|l| / (L+1)` times. -/
def strictlySatisfiable (get : String → Option String) (L : Nat)
    (l : List String) : Prop :=
  ∀ f ∈ l, attrCount get l (get f) * (L + 1) ≤ l.length

instance (get : String → Option String) (L : Nat) (l : List String) :
    Decidable (strictlySatisfiable get L l) := by
  unfold strictlySatisfiable
  infer_instance

/-- The spec's wording of the alternate `manip` rule: remove a trailing
`".wav"` SUFFIX from the token (and only a trailing one). -/
def specStripWavSuffix (t : String) : String :=
  if 4 ≤ t.toList.length ∧ t.toList.drop (t.toList.length - 4) = ".wav".toList
  then String.mk (t.toList.take (t.toList.length - 4)) else t

/-! ## The claims -/

/-- A strictly satisfiable sixteen-stimulus input for the default limits
3, 3, 3: every value of every constrained attribute occurs exactly four
times, i.e. 16 / (3 + 1). -/
def c2Input : List String :=
  ["a0_b0_x_c0", "a1_b1_x_c1", "a2_b2_x_c2", "a3_b0_x_c3",
   "a0_b1_x_c0", "a1_b2_x_c1", "a2_b0_x_c2", "a3_b1_x_c3",
   "a0_b2_x_c0", "a1_b0_x_c1", "a2_b1_x_c2", "a3_b2_x_c3",
   "a0_b3_x_c0", "a1_b3_x_c1", "a2_b3_x_c2", "a3_b3_x_c3"]

/-- C1 (counterexample).  The claim "set(output) == set(input) and
len(output) == len(input) for every input" fails for
`randomize_stimuli_based_on_name_coordination`: a stimulus whose filename
matches no predefined name coordination is dropped, so a one-element input
yields an empty output. -/
theorem C1_counterexample :
    (path_and_randomization.randomize_stimuli_based_on_name_coordination
      path_and_randomization.name_coordinations
      [⟨"x.wav", "x", "x.wav_"⟩] 0).1 = [] ∧
    [(⟨"x.wav", "x", "x.wav_"⟩ : path_and_randomization.StimulusData)].length = 1 :=
  ⟨by decide, rfl⟩

/-- C1 (amended).  `create_randomized_stimuli` preserves the stimulus set:
on well-formed identifiers it returns a permutation of its input, so the
output has the same length and the same members.
`randomize_stimuli_based_on_name_coordination`, however, returns a
permutation of only those stimuli whose filename starts with one of the
predefined coordinations — set preservation holds for it exactly when every
input matches. -/
theorem C1_amended :
    (∀ stimuli : List String, (∀ f ∈ stimuli, wf4 f) → ∀ s0 : Nat,
      ∃ out, path_stimuli.create_randomized_stimuli stimuli s0 = .ok out ∧
        out.Perm stimuli ∧ out.length = stimuli.length ∧
        (∀ x, x ∈ out ↔ x ∈ stimuli)) ∧
    (∀ (data : List path_and_randomization.StimulusData) (s : Nat),
      (path_and_randomization.randomize_stimuli_based_on_name_coordination
        path_and_randomization.name_coordinations data s).1.Perm
        (data.filter (fun d => path_and_randomization.name_coordinations.any
          (fun c => pyStartsWith d.filename c)))) := by
  constructor
  · intro stimuli hwf s0
    obtain ⟨out, hout, hperm⟩ := path_stimuli.create_randomized_stimuli_perm hwf s0
    exact ⟨out, hout, hperm, hperm.length_eq, fun x => hperm.mem_iff⟩
  · intro data s
    exact path_and_randomization.randomize_coordination_perm _ (by decide) data s

/-- C1 witness: the generation pipeline on a concrete two-stimulus corpus. -/
theorem C1_witness :
    ∃ out, path_stimuli.create_randomized_stimuli
        ["gabi__leni__bra_h.wav", "leni__mimmi_nobra_l.wav"] 0 = .ok out ∧
      out.Perm ["gabi__leni__bra_h.wav", "leni__mimmi_nobra_l.wav"] ∧
      out.length
        = (["gabi__leni__bra_h.wav", "leni__mimmi_nobra_l.wav"] : List String).length ∧
      (∀ x, x ∈ out ↔ x ∈ ["gabi__leni__bra_h.wav", "leni__mimmi_nobra_l.wav"]) :=
  C1_amended.1 ["gabi__leni__bra_h.wav", "leni__mimmi_nobra_l.wav"] (by decide) 0

/-- C2 (counterexample).  A strictly satisfiable input — every value of
every constrained attribute occurs exactly pool-size/(L+1) = 4 times — on
which `rearrange`, invoked exactly as `create_randomized_stimuli` invokes it
(limits 3, 3, 3), returns its input unchanged although the four stimuli with
condition `b3` sit in one consecutive run of length 4 > 3 at the tail: no
different-valued element exists to their right, so the swap search gives up. -/
theorem C2_counterexample :
    strictlySatisfiable path_stimuli.get_condition 3 c2Input ∧
    strictlySatisfiable path_stimuli.get_name_stim 3 c2Input ∧
    strictlySatisfiable path_stimuli.get_manip 3 c2Input ∧
    path_stimuli.rearrange c2Input 3 3 3 = .ok c2Input ∧
    3 < maxRunBy path_stimuli.get_condition c2Input :=
  ⟨by decide, by decide, by decide, by decide, by decide⟩

/-- C2 (amended).  On strictly satisfiable, well-formed input the
constrained-permutation pass is best-effort only: it terminates and returns
a permutation of its input, but runs longer than the limit can remain (see
the counterexample). -/
theorem C2_amended (stimuli : List String)
    (hwf : ∀ f ∈ stimuli, wf4 f)
    (hcond : strictlySatisfiable path_stimuli.get_condition 3 stimuli)
    (hname : strictlySatisfiable path_stimuli.get_name_stim 3 stimuli)
    (hmanip : strictlySatisfiable path_stimuli.get_manip 3 stimuli) :
    ∃ out, path_stimuli.rearrange stimuli 3 3 3 = .ok out ∧ out.Perm stimuli :=
  path_stimuli.rearrange_ok 3 3 3 hwf

/-- C2 witness: the amended claim at the concrete strictly satisfiable
input. -/
theorem C2_witness :
    ∃ out, path_stimuli.rearrange c2Input 3 3 3 = .ok out ∧ out.Perm c2Input :=
  C2_amended c2Input (by decide) (by decide) (by decide) (by decide)

/-- C3 (code_bug).  `load_and_randomize` hands the segregated DICTIONARY to
`save_randomized_stimuli`, whose `for row in randomized_stimuli` iterates
the dictionary's KEYS: after the header `filename`, the written rows are the
five name-coordination keys — not the ids of the ordered sequence.  On the
one-stimulus corpus `gabi__leni__bra_p.wav` the ordered sequence is that
single id, yet none of the data rows contains it. -/
theorem C3_saved_rows_are_keys :
    path_and_randomization.load_and_randomize ["gabi__leni__bra_p.wav"]
        path_and_randomization.name_coordinations 0
      = .ok ([["filename"], ["leni__mimmi_"], ["nelli_moni__"], ["moni__lilli_"],
              ["lilli_gabi__"], ["gabi__leni__"]],
             [("leni__mimmi_", []), ("nelli_moni__", []), ("moni__lilli_", []),
              ("lilli_gabi__", []), ("gabi__leni__", ["gabi__leni__bra_p.wav"])],
             ["leni__mimmi_", "nelli_moni__", "moni__lilli_", "lilli_gabi__",
              "gabi__leni__"], 1449466924) ∧
    path_and_randomization.segregated_sequence
        [("leni__mimmi_", []), ("nelli_moni__", []), ("moni__lilli_", []),
         ("lilli_gabi__", []), ("gabi__leni__", ["gabi__leni__bra_p.wav"])]
      = ["gabi__leni__bra_p.wav"] ∧
    [["filename"], ["leni__mimmi_"], ["nelli_moni__"], ["moni__lilli_"],
     ["lilli_gabi__"], ["gabi__leni__"]]
      ≠ ["filename"] :: (["gabi__leni__bra_p.wav"].map (fun id => [id])) :=
  ⟨by decide, by decide, by decide⟩

/-- C4 (confirmed).  Whenever `load_or_generate_stimuli` aborts with the
postcondition `AssertionError` (modelled `.error ()`), its write trace is
empty: no pickle and no CSV were written by the aborting call.  In the
generating branch the files are written before the assertion, but there the
generated sequence is always a permutation of the loaded listing, so the
assertion cannot fire; the abort can only happen in the branch that loads a
stale pickle, which writes nothing. -/
theorem C4_abort_before_persisting (listing : List String)
    (saved : Option (List String)) (s : Nat)
    (herr : (path_stimuli.load_or_generate_stimuli listing saved s).2 = .error ()) :
    (path_stimuli.load_or_generate_stimuli listing saved s).1 = [] := by
  cases saved with
  | some content =>
    by_cases h : path_stimuli.sameSet listing content = true <;>
      simp [path_stimuli.load_or_generate_stimuli, h]
  | none =>
    cases hc : path_stimuli.create_randomized_stimuli listing s with
    | error e => simp [path_stimuli.load_or_generate_stimuli, hc]
    | ok rand =>
      exfalso
      have hss : path_stimuli.sameSet listing rand = true :=
        path_stimuli.sameSet_of_perm
          (path_stimuli.create_randomized_stimuli_perm_of_ok hc)
      simp [path_stimuli.load_or_generate_stimuli, hc, hss] at herr

/-- C4 witness: a stale pickle disagreeing with the directory listing makes
the call abort, and the write trace of that call is empty. -/
theorem C4_witness :
    (path_stimuli.load_or_generate_stimuli [] (some ["x.wav"]) 0).2 = .error () ∧
    (path_stimuli.load_or_generate_stimuli [] (some ["x.wav"]) 0).1 = [] :=
  ⟨by decide, C4_abort_before_persisting [] (some ["x.wav"]) 0 (by decide)⟩

/-- C5 (counterexample).  Token-deficient identifiers do not make every
extractor fail: `"x"` has one token — fewer than the four the positional
convention requires — yet positional `get_name_stim` happily returns
`some "x"`; and the marker-based `get_name_stim` never fails at all,
returning the defaulted value `"_"` even for the token-free id `""`. -/
theorem C5_counterexample :
    splitTokens "x" = ["x"] ∧
    path_stimuli.get_name_stim "x" = some "x" ∧
    splitTokens "" = [] ∧
    path_and_randomization.get_name_stim "" = "_" :=
  ⟨by decide, by decide, by decide, by decide⟩

/-- C5 (amended).  Each token-INDEXING extractor fails (raises `IndexError`,
modelled `none`) exactly when the token list is shorter than the position it
indexes requires — `get_condition` needs 2 tokens, positional `get_manip` 4,
positional `get_name_stim` 1, marker-based `get_manip` 1 — and never returns
a default.  The marker-based `get_name_stim` is total and never fails. -/
theorem C5_amended (f : String) :
    (path_stimuli.get_condition f = none ↔ (splitTokens f).length < 2) ∧
    (path_stimuli.get_manip f = none ↔ (splitTokens f).length < 4) ∧
    (path_stimuli.get_name_stim f = none ↔ (splitTokens f).length < 1) ∧
    (path_and_randomization.get_manip f = none ↔ (splitTokens f).length < 1) := by
  refine ⟨?_, ?_, ?_, ?_⟩
  · simp only [path_stimuli.get_condition, List.getElem?_eq_none_iff]
    omega
  · simp only [path_stimuli.get_manip, List.getElem?_eq_none_iff]
    omega
  · simp only [path_stimuli.get_name_stim, List.getElem?_eq_none_iff]
    omega
  · simp only [path_and_randomization.get_manip, Option.map_eq_none']
    rw [List.getLast?_eq_none_iff]
    constructor
    · intro h
      simp [h]
    · intro h
      exact List.length_eq_zero.mp (by omega)

/-- C6 (counterexample).  `rearrange` is not raise-free on every finite list
with positive limits: on identifiers without enough tokens the very first
pass raises an `IndexError` inside `get_condition` (modelled `.error ()`). -/
theorem C6_counterexample :
    path_stimuli.rearrange ["a.wav", "b.wav"] 3 3 3 = .error () := by decide

/-- C6 (amended).  On identifiers carrying the four tokens the getters
index, `rearrange` terminates for every input and all limits without
raising, and returns a permutation of its input — accepting residual
violations (as in the witness, where all ten stimuli share one condition
and one manip value under limit 2) instead of looping or raising. -/
theorem C6_amended (stimuli : List String) (cl nl ml : Nat)
    (hwf : ∀ f ∈ stimuli, wf4 f) :
    ∃ out, path_stimuli.rearrange stimuli cl nl ml = .ok out ∧ out.Perm stimuli :=
  path_stimuli.rearrange_ok cl nl ml hwf

/-- C6 witness: the spec's adversarial input, ten stimuli sharing a single
condition value and a single manip value, limits 2. -/
theorem C6_witness :
    ∃ out, path_stimuli.rearrange
        ["a0_b_x_d", "a1_b_x_d", "a2_b_x_d", "a3_b_x_d", "a4_b_x_d",
         "a5_b_x_d", "a6_b_x_d", "a7_b_x_d", "a8_b_x_d", "a9_b_x_d"] 2 2 2
      = .ok out ∧
      out.Perm ["a0_b_x_d", "a1_b_x_d", "a2_b_x_d", "a3_b_x_d", "a4_b_x_d",
        "a5_b_x_d", "a6_b_x_d", "a7_b_x_d", "a8_b_x_d", "a9_b_x_d"] :=
  C6_amended _ 2 2 2 (by decide)

/-- C7 (confirmed).  `create_randomized_stimuli` seeds the generator
(`random.seed(666)`) before any draw, discarding whatever state the
generator carried: two runs on the same corpus produce identical results
whatever the incoming generator states.  The second conjunct shows the
property comes from the seeding, not from a degenerate shuffle model: the
shuffle itself does depend on the generator state. -/
theorem C7_determinism_under_seed :
    (∀ (stimuli : List String) (s1 s2 : Nat),
      path_stimuli.create_randomized_stimuli stimuli s1
        = path_stimuli.create_randomized_stimuli stimuli s2) ∧
    (shuffleList ["a", "b"] 0).1 ≠ (shuffleList ["a", "b"] 1).1 :=
  ⟨fun _ _ _ => rfl, by decide⟩

/-- C8 (counterexample).  The marker-based `get_manip` is
`replace('.wav', '')`, which removes EVERY occurrence of `".wav"`, not only
a trailing suffix: on `"a_b_c_d.wav.wav"` (four non-empty tokens, last token
`"d.wav.wav"`) it returns `"d"`, while removing the `.wav` suffix of the
last token would give `"d.wav"`. -/
theorem C8_counterexample :
    (splitTokens "a_b_c_d.wav.wav").length = 4 ∧
    (splitTokens "a_b_c_d.wav.wav").getLast? = some "d.wav.wav" ∧
    specStripWavSuffix "d.wav.wav" = "d.wav" ∧
    path_and_randomization.get_manip "a_b_c_d.wav.wav" = some "d" ∧
    some "d" ≠ some (specStripWavSuffix "d.wav.wav") :=
  ⟨by decide, by decide, by decide, by decide, by decide⟩

/-- C8 (amended).  For a filename with at least four non-empty
underscore-delimited tokens, the positional convention yields
`name_stim` = token 0, `condition` = token 1 and `manip` = token 3; under
the marker convention `manip` is the LAST token with every occurrence of
`".wav"` removed (not merely a trailing suffix), and `name_stim` is the
part of the filename before the first occurrence of `"_bra_"` with an
underscore appended. -/
theorem C8_amended (f : String) (h : 4 ≤ (splitTokens f).length) :
    path_stimuli.get_name_stim f = some ((splitTokens f).get ⟨0, by omega⟩) ∧
    path_stimuli.get_condition f = some ((splitTokens f).get ⟨1, by omega⟩) ∧
    path_stimuli.get_manip f = some ((splitTokens f).get ⟨3, by omega⟩) ∧
    (∀ t, (splitTokens f).getLast? = some t →
      path_and_randomization.get_manip f = some (pyReplace t ".wav" "")) ∧
    path_and_randomization.get_name_stim f = ((pySplit f "_bra_").headD "") ++ "_" := by
  refine ⟨?_, ?_, ?_, fun t ht => ?_, rfl⟩
  · simp only [path_stimuli.get_name_stim, List.getElem?_eq_getElem (by omega : 0 < (splitTokens f).length)]
    simp [List.get_eq_getElem]
  · simp only [path_stimuli.get_condition, List.getElem?_eq_getElem (by omega : 1 < (splitTokens f).length)]
    simp [List.get_eq_getElem]
  · simp only [path_stimuli.get_manip, List.getElem?_eq_getElem (by omega : 3 < (splitTokens f).length)]
    simp [List.get_eq_getElem]
  · simp only [path_and_randomization.get_manip, ht, Option.map_some']

/-- C8 witness: the amended extraction rules at a concrete four-token
filename. -/
theorem C8_witness :
    path_stimuli.get_name_stim "a_b_c_d.wav"
      = some ((splitTokens "a_b_c_d.wav").get ⟨0, by decide⟩) ∧
    path_and_randomization.get_manip "a_b_c_d.wav"
      = some (pyReplace "d.wav" ".wav" "") :=
  ⟨(C8_amended "a_b_c_d.wav" (by decide)).1,
   (C8_amended "a_b_c_d.wav" (by decide)).2.2.2.1 "d.wav" (by decide)⟩

/-- C9 (confirmed).  The output of
`randomize_stimuli_based_on_name_coordination` is a permutation of exactly
those input stimuli whose filename starts with one of the five predefined
name-coordination strings; every stimulus matching none of them is silently
absent from the output. -/
theorem C9_coordination_membership
    (data : List path_and_randomization.StimulusData) (s : Nat) :
    (path_and_randomization.randomize_stimuli_based_on_name_coordination
      path_and_randomization.name_coordinations data s).1.Perm
      (data.filter (fun d => path_and_randomization.name_coordinations.any
        (fun c => pyStartsWith d.filename c))) ∧
    ∀ d ∈ data,
      path_and_randomization.name_coordinations.any
        (fun c => pyStartsWith d.filename c) = false →
      d ∉ (path_and_randomization.randomize_stimuli_based_on_name_coordination
        path_and_randomization.name_coordinations data s).1 := by
  have hperm := path_and_randomization.randomize_coordination_perm
    path_and_randomization.name_coordinations (by decide) data s
  refine ⟨hperm, fun d _ hfalse hmem => ?_⟩
  have hfil := hperm.mem_iff.mp hmem
  rw [List.mem_filter] at hfil
  rw [hfalse] at hfil
  exact Bool.noConfusion hfil.2

/-- C9 witness: a non-matching stimulus is absent from the concrete output
while the matching one survives. -/
theorem C9_witness :
    (⟨"x.wav", "x", "x.wav_"⟩ : path_and_randomization.StimulusData) ∉
      (path_and_randomization.randomize_stimuli_based_on_name_coordination
        path_and_randomization.name_coordinations
        [⟨"gabi__leni__bra_p.wav", "p", "gabi__leni__"⟩, ⟨"x.wav", "x", "x.wav_"⟩]
        0).1 :=
  (C9_coordination_membership
    [⟨"gabi__leni__bra_p.wav", "p", "gabi__leni__"⟩, ⟨"x.wav", "x", "x.wav_"⟩] 0).2
    ⟨"x.wav", "x", "x.wav_"⟩ (by decide) (by decide)

/-- C10 (confirmed).  A call to `rearrange` leaves the caller's list exactly
as it was — all swaps happen on the `stimuli.copy()` — and the returned
copy, whenever the call returns, is a permutation of it. -/
theorem C10_rearrange_frame (stimuli : List String) (cl nl ml : Nat) :
    (path_stimuli.rearrange_call stimuli cl nl ml).1 = stimuli ∧
    ∀ out, (path_stimuli.rearrange_call stimuli cl nl ml).2 = .ok out →
      out.Perm stimuli :=
  ⟨rfl, fun _ h => path_stimuli.rearrange_perm h⟩

/-- C10 witness: a concrete call leaving the argument untouched and
returning a permutation. -/
theorem C10_witness :
    (path_stimuli.rearrange_call ["a_b_c_d", "e_f_g_h"] 3 3 3).1
      = ["a_b_c_d", "e_f_g_h"] ∧
    (["a_b_c_d", "e_f_g_h"] : List String).Perm ["a_b_c_d", "e_f_g_h"] :=
  ⟨(C10_rearrange_frame ["a_b_c_d", "e_f_g_h"] 3 3 3).1,
   (C10_rearrange_frame ["a_b_c_d", "e_f_g_h"] 3 3 3).2
     ["a_b_c_d", "e_f_g_h"] (by decide)⟩
